import Mathlib

/-!
Shallow embedding of `rapidrecast/parser-helper` (src/src/lib.rs).

Byte sequences are modelled as `List Nat`; a Rust subslice `&source[i..j]`
becomes `(source.drop i).take (j - i)`. Rust `Result<T, ()>` becomes
`Option T`; `Result<T, E>` with a payload becomes `Except E T`. The scan
loops `for i in a..b` become `find?`/`foldl` over `List.range' a (b - a)`,
which enumerates exactly the indices `a, a+1, ..., b-1`.
-/

namespace ParserHelper

/-- Rust stdlib `<[u8]>::starts_with(needle)`:
`self.len() >= needle.len() && self[..needle.len()] == needle`. -/
def starts_with (source pattern : List Nat) : Bool :=
  if pattern.length ≤ source.length then source.take pattern.length == pattern else false

/-- `ParseHelper::take_until` (src/src/lib.rs:6-17): if the source is shorter
than the pattern, fail; otherwise scan `i` in `0..=source.len() - pattern.len()`
and return the split at the first `i` where `source[i..]` starts with
`pattern`; fail if no such `i` exists. -/
def take_until (source pattern : List Nat) : Option (List Nat × List Nat) :=
  if source.length < pattern.length then none
  else
    match (List.range (source.length - pattern.length + 1)).find?
        (fun i => starts_with (source.drop i) pattern) with
    | some i => some (source.take i, source.drop i)
    | none => none

/-- `ParseHelper::take_exact` (src/src/lib.rs:25-31): fail if the source is
shorter than `count`, otherwise split at `count`. -/
def take_exact (source : List Nat) (count : Nat) : Option (List Nat × List Nat) :=
  if source.length < count then none
  else some (source.take count, source.drop count)

/-- `ParseHelper::take_expect` (src/src/lib.rs:39-50): fail with the whole
source if it is shorter than the pattern; otherwise compare the bytes at
indices `0..pattern.len()`. The Rust loop returns `Err(source)` at the first
mismatching index; since that error payload does not depend on the index, the
loop is equivalent to requiring all indices to match. On success, split at
`pattern.len()`. -/
def take_expect (source pattern : List Nat) : Except (List Nat) (List Nat × List Nat) :=
  if source.length < pattern.length then .error source
  else if (List.range pattern.length).all (fun i => source.getD i 0 == pattern.getD i 0)
  then .ok (source.take pattern.length, source.drop pattern.length)
  else .error source

/-- `ParseHelper::maybe_expect` (src/src/lib.rs:58-63): wrap `take_expect`,
turning success `(first, second)` into `(some first, second)` and failure into
`(none, source)`. -/
def maybe_expect (source pattern : List Nat) : Option (List Nat) × List Nat :=
  match take_expect source pattern with
  | .ok (first, second) => (some first, second)
  | .error _ => (none, source)

/-- `ParseHelper::take_smallest_err` (src/src/lib.rs:67-74): scan `i` in
`min_size..source.len()` and return the split at the first `i` where
`f source[..i]` holds; otherwise return the caller-supplied error. -/
def take_smallest_err {E : Type} (source : List Nat) (f : List Nat → Bool)
    (min_size : Nat) (err : E) : Except E (List Nat × List Nat) :=
  match (List.range' min_size (source.length - min_size)).find?
      (fun i => f (source.take i)) with
  | some i => .ok (source.take i, source.drop i)
  | none => .error err

/-- `ParseHelper::take_largest_err` (src/src/lib.rs:78-86): scan `i` in
`min_size..source.len()`, keeping in `largest` the last `i` where
`f source[..i]` held (the Rust `let mut largest = None` / overwrite loop is the
`foldl` below); split there, or return the caller-supplied error if the
predicate never held. -/
def take_largest_err {E : Type} (source : List Nat) (f : List Nat → Bool)
    (min_size : Nat) (err : E) : Except E (List Nat × List Nat) :=
  match (List.range' min_size (source.length - min_size)).foldl
      (fun largest i => if f (source.take i) then some i else largest) none with
  | some i => .ok (source.take i, source.drop i)
  | none => .error err

/-- The byte string `"aaaabbbbcccc"` used by the repository tests. -/
def aaaabbbbcccc : List Nat :=
  [97, 97, 97, 97, 98, 98, 98, 98, 99, 99, 99, 99]

/-! ### Helper lemmas about the scan loops -/

/-- `find?` over `range' s n` returns the least index in `[s, s+n)` satisfying
the predicate, together with the fact that it satisfies it. -/
lemma find?_range'_spec {p : Nat → Bool} :
    ∀ (n s i : Nat), (List.range' s n).find? p = some i →
      s ≤ i ∧ i < s + n ∧ p i = true ∧ ∀ j, s ≤ j → j < i → p j = false := by
  intro n
  induction n with
  | zero => intro s i h; simp at h
  | succ n ih =>
    intro s i h
    rw [List.range'_succ] at h
    cases hps : p s with
    | true =>
      rw [List.find?_cons_of_pos _ hps] at h
      obtain rfl : s = i := by injection h
      exact ⟨Nat.le_refl s, by omega, hps, fun j h1 h2 => absurd (Nat.lt_of_le_of_lt h1 h2) (Nat.lt_irrefl s)⟩
    | false =>
      rw [List.find?_cons_of_neg _ (by simp [hps])] at h
      obtain ⟨h1, h2, h3, h4⟩ := ih (s + 1) i h
      refine ⟨by omega, by omega, h3, fun j hj1 hj2 => ?_⟩
      rcases Nat.lt_or_ge j (s + 1) with hj | hj
      · have : j = s := by omega
        exact this ▸ hps
      · exact h4 j hj hj2

/-- `find?` over `range' s n` finds `lo` when `lo` is in range, satisfies the
predicate, and every earlier index fails it. -/
lemma find?_range'_first {p : Nat → Bool} :
    ∀ (n s lo : Nat), s ≤ lo → lo < s + n → p lo = true →
      (∀ j, s ≤ j → j < lo → p j = false) →
      (List.range' s n).find? p = some lo := by
  intro n
  induction n with
  | zero => intro s lo h1 h2 _ _; omega
  | succ n ih =>
    intro s lo h1 h2 hlo hmin
    rw [List.range'_succ]
    rcases Nat.eq_or_lt_of_le h1 with rfl | hlt
    · exact List.find?_cons_of_pos _ hlo
    · rw [List.find?_cons_of_neg _ (by simp [hmin s (Nat.le_refl s) hlt])]
      exact ih (s + 1) lo hlt (by omega) hlo (fun j hj1 hj2 => hmin j (by omega) hj2)

/-- The overwrite-fold (Rust `let mut largest = None; for i ... largest = Some(i)`)
yields an element of the list that satisfies the predicate, unless it yields
the initial accumulator. -/
lemma foldl_last_mem {p : Nat → Bool} :
    ∀ (l : List Nat) (acc : Option Nat) (i : Nat),
      l.foldl (fun largest j => if p j then some j else largest) acc = some i →
      (i ∈ l ∧ p i = true) ∨ acc = some i := by
  intro l
  induction l with
  | nil => intro acc i h; exact Or.inr h
  | cons a l ih =>
    intro acc i h
    rw [List.foldl_cons] at h
    rcases ih _ i h with ⟨hm, hp⟩ | hacc
    · exact Or.inl ⟨List.mem_cons_of_mem a hm, hp⟩
    · cases hpa : p a with
      | true =>
        rw [if_pos hpa] at hacc
        obtain rfl : a = i := by injection hacc
        exact Or.inl ⟨List.mem_cons_self a l, hpa⟩
      | false =>
        rw [if_neg (by simp [hpa])] at hacc
        exact Or.inr hacc

/-- The overwrite-fold leaves the accumulator untouched when no element of the
list satisfies the predicate. -/
lemma foldl_last_none {p : Nat → Bool} :
    ∀ (l : List Nat) (acc : Option Nat), (∀ j ∈ l, p j = false) →
      l.foldl (fun largest j => if p j then some j else largest) acc = acc := by
  intro l
  induction l with
  | nil => intro acc _; rfl
  | cons a l ih =>
    intro acc hall
    rw [List.foldl_cons, if_neg (by simp [hall a (List.mem_cons_self a l)])]
    exact ih acc (fun j hj => hall j (List.mem_cons_of_mem a hj))

/-- When the predicate holds exactly on `[lo, hi)` inside the scanned range
`[s, s+n)`, the overwrite-fold ends at `hi - 1`, the last satisfying index. -/
lemma foldl_last_range' {p : Nat → Bool} :
    ∀ (n s lo hi : Nat), s ≤ lo → lo < hi → hi ≤ s + n →
      (∀ i, s ≤ i → i < s + n → (p i = true ↔ lo ≤ i ∧ i < hi)) →
      ∀ acc, (List.range' s n).foldl (fun largest j => if p j then some j else largest) acc
        = some (hi - 1) := by
  intro n
  induction n with
  | zero => intro s lo hi h1 h2 h3 _ _; omega
  | succ n ih =>
    intro s lo hi h1 h2 h3 hp acc
    rw [List.range'_1_concat, List.foldl_append, List.foldl_cons, List.foldl_nil]
    cases hpe : p (s + n) with
    | true =>
      rw [if_pos rfl]
      have hb := (hp (s + n) (by omega) (by omega)).mp hpe
      have : hi = s + n + 1 := by omega
      simp [this]
    | false =>
      rw [if_neg (by simp)]
      have hhi : hi ≤ s + n := by
        by_contra hc
        have h5 : lo ≤ s + n := by omega
        have h6 : s + n < hi := by omega
        have := (hp (s + n) (by omega) (by omega)).mpr ⟨h5, h6⟩
        rw [hpe] at this
        exact Bool.false_ne_true this
      exact ih s lo hi h1 h2 hhi (fun i hi1 hi2 => hp i hi1 (by omega)) acc

/-! ### Success and failure characterizations of the operations -/

/-- A split at `i` reconstructs the view and its length. -/
lemma split_parts {view a b : List Nat} (i : Nat)
    (ha : a = view.take i) (hb : b = view.drop i) :
    a ++ b = view ∧ a.length + b.length = view.length := by
  subst ha hb
  refine ⟨List.take_append_drop i view, ?_⟩
  rw [← List.length_append, List.take_append_drop]

/-- Successful `take_until` splits at the least index where the remaining
suffix starts with the pattern. -/
lemma take_until_ok {view pattern a b : List Nat}
    (h : take_until view pattern = some (a, b)) :
    ∃ i, a = view.take i ∧ b = view.drop i ∧ pattern.length ≤ view.length ∧
      i ≤ view.length - pattern.length ∧
      starts_with (view.drop i) pattern = true ∧
      ∀ j, j < i → starts_with (view.drop j) pattern = false := by
  unfold take_until at h
  by_cases hl : view.length < pattern.length
  · rw [if_pos hl] at h
    exact absurd h (by simp)
  · rw [if_neg hl] at h
    cases hfind : (List.range (view.length - pattern.length + 1)).find?
        (fun i => starts_with (view.drop i) pattern) with
    | none => rw [hfind] at h; exact absurd h (by simp)
    | some i =>
      rw [hfind] at h
      obtain ⟨rfl, rfl⟩ : view.take i = a ∧ view.drop i = b := by
        simpa [Prod.ext_iff] using h
      rw [List.range_eq_range'] at hfind
      obtain ⟨_, h2, h3, h4⟩ := find?_range'_spec _ _ _ hfind
      exact ⟨i, rfl, rfl, by omega, by omega, h3, fun j hj => h4 j (Nat.zero_le j) hj⟩

/-- Successful `take_exact` splits at `count`. -/
lemma take_exact_ok {view a b : List Nat} {count : Nat}
    (h : take_exact view count = some (a, b)) :
    a = view.take count ∧ b = view.drop count ∧ count ≤ view.length := by
  unfold take_exact at h
  by_cases hl : view.length < count
  · rw [if_pos hl] at h; exact absurd h (by simp)
  · rw [if_neg hl] at h
    have := by simpa [Prod.ext_iff] using h
    exact ⟨this.1.symm, this.2.symm, by omega⟩

/-- For `pattern.length ≤ source.length`, the index-by-index byte comparison in
`take_expect` is equivalent to the matched-length prefix equalling the pattern. -/
lemma expect_check_iff {source pattern : List Nat} (h : pattern.length ≤ source.length) :
    ((List.range pattern.length).all (fun i => source.getD i 0 == pattern.getD i 0)) = true
      ↔ source.take pattern.length = pattern := by
  rw [List.all_eq_true]
  simp only [List.mem_range, beq_iff_eq]
  constructor
  · intro hall
    apply List.ext_getElem (by simp [Nat.min_eq_left h])
    intro i h1 h2
    have hi : i < pattern.length := h2
    have hs : i < source.length := Nat.lt_of_lt_of_le hi h
    have hd := hall i hi
    rw [List.getD_eq_getElem?_getD, List.getD_eq_getElem?_getD,
      List.getElem?_eq_getElem hs, List.getElem?_eq_getElem hi] at hd
    simpa using hd
  · intro hteq i hi
    have hs : i < source.length := Nat.lt_of_lt_of_le hi h
    rw [List.getD_eq_getElem?_getD, List.getD_eq_getElem?_getD,
      List.getElem?_eq_getElem hs, List.getElem?_eq_getElem hi]
    simp only [Option.getD_some]
    have h2 : (source.take pattern.length)[i]? = pattern[i]? := by rw [hteq]
    rw [List.getElem?_take_of_lt hi, List.getElem?_eq_getElem hs,
      List.getElem?_eq_getElem hi] at h2
    exact Option.some.inj h2

/-- Taking the pattern-length prefix yields the pattern exactly when the view
is the pattern followed by some tail. -/
lemma take_eq_append_iff {view pattern : List Nat} :
    (pattern.length ≤ view.length ∧ view.take pattern.length = pattern)
      ↔ ∃ t, view = pattern ++ t := by
  constructor
  · rintro ⟨h, hteq⟩
    refine ⟨view.drop pattern.length, ?_⟩
    conv_lhs => rw [← List.take_append_drop pattern.length view]
    rw [hteq]
  · rintro ⟨t, rfl⟩
    exact ⟨by simp, List.take_left' rfl⟩

/-- Successful `take_expect` splits at the pattern length and the matched part
is the pattern. -/
lemma take_expect_ok {view pattern a b : List Nat}
    (h : take_expect view pattern = .ok (a, b)) :
    a = view.take pattern.length ∧ b = view.drop pattern.length ∧
      pattern.length ≤ view.length ∧ view.take pattern.length = pattern := by
  unfold take_expect at h
  by_cases hl : view.length < pattern.length
  · rw [if_pos hl] at h; exact absurd h (by simp)
  · rw [if_neg hl] at h
    by_cases hc : ((List.range pattern.length).all
        (fun i => view.getD i 0 == pattern.getD i 0)) = true
    · rw [if_pos hc] at h
      have hp := by simpa [Prod.ext_iff] using h
      exact ⟨hp.1.symm, hp.2.symm, by omega, (expect_check_iff (by omega)).mp hc⟩
    · rw [if_neg hc] at h; exact absurd h (by simp)

/-- `take_expect` only ever fails with the original view as error payload. -/
lemma take_expect_error {view pattern e : List Nat}
    (h : take_expect view pattern = .error e) : e = view := by
  unfold take_expect at h
  by_cases hl : view.length < pattern.length
  · rw [if_pos hl] at h
    injection h with h
    exact h.symm
  · rw [if_neg hl] at h
    by_cases hc : ((List.range pattern.length).all
        (fun i => view.getD i 0 == pattern.getD i 0)) = true
    · rw [if_pos hc] at h; exact absurd h (by simp)
    · rw [if_neg hc] at h
      injection h with h
      exact h.symm

/-- Successful `take_smallest_err` splits at the least in-range index whose
prefix satisfies the predicate. -/
lemma take_smallest_ok {E : Type} {view a b : List Nat} {f : List Nat → Bool}
    {min_size : Nat} {err : E}
    (h : take_smallest_err view f min_size err = .ok (a, b)) :
    ∃ i, a = view.take i ∧ b = view.drop i ∧ min_size ≤ i ∧ i < view.length ∧
      f (view.take i) = true ∧
      ∀ j, min_size ≤ j → j < i → f (view.take j) = false := by
  unfold take_smallest_err at h
  cases hfind : (List.range' min_size (view.length - min_size)).find?
      (fun i => f (view.take i)) with
  | none => rw [hfind] at h; exact absurd h (by simp)
  | some i =>
    rw [hfind] at h
    obtain ⟨rfl, rfl⟩ : view.take i = a ∧ view.drop i = b := by
      simpa [Prod.ext_iff] using h
    obtain ⟨h1, h2, h3, h4⟩ := find?_range'_spec _ _ _ hfind
    exact ⟨i, rfl, rfl, h1, by omega, h3, h4⟩

/-- Successful `take_largest_err` splits at an in-range index whose prefix
satisfies the predicate. -/
lemma take_largest_ok {E : Type} {view a b : List Nat} {f : List Nat → Bool}
    {min_size : Nat} {err : E}
    (h : take_largest_err view f min_size err = .ok (a, b)) :
    ∃ i, a = view.take i ∧ b = view.drop i ∧ min_size ≤ i ∧ i < view.length ∧
      f (view.take i) = true := by
  unfold take_largest_err at h
  cases hfold : (List.range' min_size (view.length - min_size)).foldl
      (fun largest i => if f (view.take i) then some i else largest) none with
  | none => rw [hfold] at h; exact absurd h (by simp)
  | some i =>
    rw [hfold] at h
    obtain ⟨rfl, rfl⟩ : view.take i = a ∧ view.drop i = b := by
      simpa [Prod.ext_iff] using h
    rcases foldl_last_mem _ _ _ hfold with ⟨hm, hp⟩ | hacc
    · rw [List.mem_range'_1] at hm
      exact ⟨i, rfl, rfl, hm.1, by omega, hp⟩
    · exact absurd hacc (by simp)

/-- `take_smallest_err` fails when no in-range prefix satisfies the predicate. -/
lemma take_smallest_error_of {E : Type} {view : List Nat} {f : List Nat → Bool}
    {min_size : Nat} (err : E)
    (hall : ∀ i, min_size ≤ i → i < view.length → f (view.take i) = false) :
    take_smallest_err view f min_size err = .error err := by
  unfold take_smallest_err
  have hfind : (List.range' min_size (view.length - min_size)).find?
      (fun i => f (view.take i)) = none := by
    rw [List.find?_eq_none]
    intro x hx
    rw [List.mem_range'_1] at hx
    simp [hall x hx.1 (by omega)]
  rw [hfind]

/-- `take_largest_err` fails when no in-range prefix satisfies the predicate. -/
lemma take_largest_error_of {E : Type} {view : List Nat} {f : List Nat → Bool}
    {min_size : Nat} (err : E)
    (hall : ∀ i, min_size ≤ i → i < view.length → f (view.take i) = false) :
    take_largest_err view f min_size err = .error err := by
  unfold take_largest_err
  have hfold : (List.range' min_size (view.length - min_size)).foldl
      (fun largest i => if f (view.take i) then some i else largest) none = none := by
    apply foldl_last_none
    intro j hj
    rw [List.mem_range'_1] at hj
    exact hall j hj.1 (by omega)
  rw [hfold]

/-! ### Claim theorems -/

/-- Claim C1: for every input view and for every operation (take_until,
take_exact, take_expect, take_smallest_err, take_largest_err), if the operation
succeeds and returns the pair (matched, rest), then concatenating matched and
rest byte-for-byte reproduces the original input view exactly, and
`matched.length + rest.length = original.length`. -/
theorem splits_reconstruct (view pattern : List Nat) (count min_size : Nat)
    (f : List Nat → Bool) {E : Type} (err : E) :
    (∀ a b, take_until view pattern = some (a, b) →
      a ++ b = view ∧ a.length + b.length = view.length) ∧
    (∀ a b, take_exact view count = some (a, b) →
      a ++ b = view ∧ a.length + b.length = view.length) ∧
    (∀ a b, take_expect view pattern = .ok (a, b) →
      a ++ b = view ∧ a.length + b.length = view.length) ∧
    (∀ a b, take_smallest_err view f min_size err = .ok (a, b) →
      a ++ b = view ∧ a.length + b.length = view.length) ∧
    (∀ a b, take_largest_err view f min_size err = .ok (a, b) →
      a ++ b = view ∧ a.length + b.length = view.length) := by
  refine ⟨fun a b h => ?_, fun a b h => ?_, fun a b h => ?_, fun a b h => ?_,
    fun a b h => ?_⟩
  · obtain ⟨i, ha, hb, -⟩ := take_until_ok h
    exact split_parts i ha hb
  · obtain ⟨ha, hb, -⟩ := take_exact_ok h
    exact split_parts count ha hb
  · obtain ⟨ha, hb, -⟩ := take_expect_ok h
    exact split_parts pattern.length ha hb
  · obtain ⟨i, ha, hb, -⟩ := take_smallest_ok h
    exact split_parts i ha hb
  · obtain ⟨i, ha, hb, -⟩ := take_largest_ok h
    exact split_parts i ha hb

/-- Witness for claim C1 at concrete successful calls of all five operations. -/
theorem splits_reconstruct_witness :
    (([] : List Nat) ++ [1, 2, 3] = [1, 2, 3] ∧
      ([] : List Nat).length + ([1, 2, 3] : List Nat).length = ([1, 2, 3] : List Nat).length) ∧
    (([1, 2] : List Nat) ++ [3] = [1, 2, 3] ∧
      ([1, 2] : List Nat).length + ([3] : List Nat).length = ([1, 2, 3] : List Nat).length) ∧
    (([1] : List Nat) ++ [2, 3] = [1, 2, 3] ∧
      ([1] : List Nat).length + ([2, 3] : List Nat).length = ([1, 2, 3] : List Nat).length) := by
  have H := splits_reconstruct [1, 2, 3] [1] 2 0 (fun l => l == [1]) ()
  refine ⟨H.1 [] [1, 2, 3] (by decide), H.2.1 [1, 2] [3] (by decide), ?_⟩
  have h3 := H.2.2.1 [1] [2, 3] rfl
  have h4 := H.2.2.2.1 [1] [2, 3] rfl
  have h5 := H.2.2.2.2 [1] [2, 3] rfl
  exact h3

/-- Claim C6: take_exact succeeds iff `count ≤ view.length`; on success the
head has length exactly `count`, head and tail are the corresponding
prefix/suffix, and `count = 0` returns an empty head with the original view. -/
theorem take_exact_correct (view : List Nat) (count : Nat) :
    ((take_exact view count).isSome = true ↔ count ≤ view.length) ∧
    (∀ a b, take_exact view count = some (a, b) →
      a.length = count ∧ a = view.take count ∧ b = view.drop count) ∧
    take_exact view 0 = some ([], view) := by
  refine ⟨?_, fun a b h => ?_, ?_⟩
  · unfold take_exact
    by_cases hl : view.length < count
    · rw [if_pos hl]
      simp only [Option.isSome_none, Bool.false_eq_true, false_iff]
      omega
    · rw [if_neg hl]
      simp only [Option.isSome_some, true_iff]
      omega
  · obtain ⟨ha, hb, hc⟩ := take_exact_ok h
    refine ⟨?_, ha, hb⟩
    rw [ha, List.length_take]
    omega
  · unfold take_exact
    rw [if_neg (by omega)]
    simp

/-- Witness for claim C6 at a concrete input. -/
theorem take_exact_correct_witness :
    ([1, 2] : List Nat).length = 2 ∧ ([1, 2] : List Nat) = ([1, 2, 3] : List Nat).take 2 ∧
      ([3] : List Nat) = ([1, 2, 3] : List Nat).drop 2 :=
  (take_exact_correct [1, 2, 3] 2).2.1 [1, 2] [3] (by decide)

/-- Claim C7: take_expect succeeds iff the view begins with the pattern
byte-for-byte; on success the matched part is the pattern and the tail is the
rest; on failure the error payload is the original, unconsumed view. -/
theorem take_expect_correct (view pattern : List Nat) :
    ((∃ a b, take_expect view pattern = .ok (a, b)) ↔ ∃ t, view = pattern ++ t) ∧
    (∀ a b, take_expect view pattern = .ok (a, b) →
      a = pattern ∧ b = view.drop pattern.length) ∧
    (∀ e, take_expect view pattern = .error e → e = view) := by
  refine ⟨⟨?_, ?_⟩, fun a b h => ?_, fun e h => take_expect_error h⟩
  · rintro ⟨a, b, h⟩
    obtain ⟨-, -, hle, hteq⟩ := take_expect_ok h
    exact take_eq_append_iff.mp ⟨hle, hteq⟩
  · rintro ⟨t, rfl⟩
    unfold take_expect
    rw [if_neg (by simp)]
    rw [if_pos ((expect_check_iff (by simp)).mpr (List.take_left' rfl))]
    exact ⟨_, _, rfl⟩
  · obtain ⟨ha, hb, -, hteq⟩ := take_expect_ok h
    exact ⟨ha.trans hteq, hb⟩

/-- Witness for claim C7 at concrete success and failure inputs. -/
theorem take_expect_correct_witness :
    (([2] : List Nat) = [2] ∧ ([3] : List Nat) = ([2, 3] : List Nat).drop 1) ∧
      ([1] : List Nat) = [1] :=
  ⟨(take_expect_correct [2, 3] [2]).2.1 [2] [3] rfl,
   (take_expect_correct [1] [2, 3]).2.2 [1] rfl⟩

/-- Claim C8: maybe_expect never fails: it returns `(some matched, tail)`
exactly when take_expect succeeds with `(matched, tail)`, and
`(none, original view)` when take_expect fails. -/
theorem maybe_expect_correct (view pattern : List Nat) :
    (∀ a b, maybe_expect view pattern = (some a, b) ↔
      take_expect view pattern = .ok (a, b)) ∧
    ((∃ e, take_expect view pattern = .error e) →
      maybe_expect view pattern = (none, view)) := by
  unfold maybe_expect
  cases hte : take_expect view pattern with
  | ok p =>
    obtain ⟨x, y⟩ := p
    refine ⟨fun a b => ?_, ?_⟩ <;> simp [Prod.ext_iff]
  | error e =>
    refine ⟨fun a b => ?_, ?_⟩ <;> simp [Prod.ext_iff]

/-- Witness for claim C8 at a concrete failing input. -/
theorem maybe_expect_correct_witness :
    maybe_expect [1] [2] = (none, [1]) :=
  (maybe_expect_correct [1] [2]).2 ⟨[1], rfl⟩

/-- Claim C2: for every view and non-empty pattern, a successful take_until
splits at the smallest index whose suffix starts with the pattern, and
take_until fails exactly when the pattern is longer than the view or no index
in `[0, view.length - pattern.length]` has a suffix starting with the pattern. -/
theorem take_until_correct (view pattern : List Nat) (_hp : pattern ≠ []) :
    (∀ a b, take_until view pattern = some (a, b) →
      a = view.take a.length ∧ b = view.drop a.length ∧
      starts_with (view.drop a.length) pattern = true ∧
      ∀ j, starts_with (view.drop j) pattern = true → a.length ≤ j) ∧
    (take_until view pattern = none ↔
      view.length < pattern.length ∨
        ∀ i, i ≤ view.length - pattern.length →
          starts_with (view.drop i) pattern = false) := by
  constructor
  · intro a b h
    obtain ⟨i, ha, hb, hple, hile, hsw, hmin⟩ := take_until_ok h
    have hlen : a.length = i := by
      rw [ha, List.length_take]
      omega
    rw [hlen]
    refine ⟨ha, hb, hsw, fun j hj => ?_⟩
    rcases Nat.lt_or_ge j i with hlt | hge
    · rw [hmin j hlt] at hj
      exact absurd hj (by simp)
    · exact hge
  · constructor
    · intro h
      unfold take_until at h
      by_cases hl : view.length < pattern.length
      · exact Or.inl hl
      · rw [if_neg hl] at h
        cases hfind : (List.range (view.length - pattern.length + 1)).find?
            (fun i => starts_with (view.drop i) pattern) with
        | some i => rw [hfind] at h; exact absurd h (by simp)
        | none =>
          refine Or.inr fun i hi => ?_
          have := List.find?_eq_none.mp hfind i (by rw [List.mem_range]; omega)
          simpa using this
    · intro h
      unfold take_until
      by_cases hl : view.length < pattern.length
      · rw [if_pos hl]
      · rw [if_neg hl]
        rcases h with hl2 | hall
        · exact absurd hl2 hl
        · have hfind : (List.range (view.length - pattern.length + 1)).find?
              (fun i => starts_with (view.drop i) pattern) = none := by
            rw [List.find?_eq_none]
            intro x hx
            rw [List.mem_range] at hx
            simp [hall x (by omega)]
          rw [hfind]

/-- Witness for claim C2: a concrete success exercising minimality, plus the
failure criterion at a too-long pattern. -/
theorem take_until_correct_witness :
    ([5] : List Nat).length ≤ 1 ∧
      (take_until [5] [6, 7] = none ↔
        ([5] : List Nat).length < ([6, 7] : List Nat).length ∨
          ∀ i, i ≤ ([5] : List Nat).length - ([6, 7] : List Nat).length →
            starts_with (([5] : List Nat).drop i) [6, 7] = false) :=
  ⟨((take_until_correct [5, 6, 7] [6] (by decide)).1 [5] [6, 7] rfl).2.2.2 1 (by decide),
   (take_until_correct [5] [6, 7] (by decide)).2⟩

/-- Claim C3: both predicate scans only test candidate prefix lengths `i` with
`min_size ≤ i < view.length` (so a successful matched prefix always has length
in that interval), and a predicate that holds only for the full-length prefix
makes both scans fail with the caller-supplied error. -/
theorem scan_domain (view : List Nat) (f : List Nat → Bool) (min_size : Nat)
    {E : Type} (err : E) :
    (∀ a b, take_smallest_err view f min_size err = .ok (a, b) →
      min_size ≤ a.length ∧ a.length < view.length) ∧
    (∀ a b, take_largest_err view f min_size err = .ok (a, b) →
      min_size ≤ a.length ∧ a.length < view.length) ∧
    ((∀ l, f l = true ↔ l = view) →
      take_smallest_err view f min_size err = .error err ∧
      take_largest_err view f min_size err = .error err) := by
  refine ⟨fun a b h => ?_, fun a b h => ?_, fun hf => ?_⟩
  · obtain ⟨i, ha, hb, h1, h2, -⟩ := take_smallest_ok h
    rw [ha, List.length_take]
    omega
  · obtain ⟨i, ha, hb, h1, h2, -⟩ := take_largest_ok h
    rw [ha, List.length_take]
    omega
  · have hall : ∀ i, min_size ≤ i → i < view.length → f (view.take i) = false := by
      intro i _ h2
      cases hfi : f (view.take i) with
      | false => rfl
      | true =>
        have heq := (hf _).mp hfi
        have hlen := congrArg List.length heq
        rw [List.length_take] at hlen
        omega
    exact ⟨take_smallest_error_of err hall, take_largest_error_of err hall⟩

/-- Witness for claim C3: a concrete successful scan stays inside the domain,
and a full-length-only predicate fails. -/
theorem scan_domain_witness :
    (0 ≤ ([1] : List Nat).length ∧ ([1] : List Nat).length < ([1, 2, 3] : List Nat).length) ∧
      take_smallest_err [1, 2, 3] (fun l => l == [1, 2, 3]) 0 () = .error () :=
  ⟨(scan_domain [1, 2, 3] (fun l => l == [1]) 0 ()).1 [1] [2, 3] rfl,
   ((scan_domain [1, 2, 3] (fun l => l == [1, 2, 3]) 0 ()).2.2 (fun _ => beq_iff_eq)).1⟩

/-- Claim C5: when the predicate holds exactly on one contiguous range
`[lo, hi)` of candidate lengths inside the scan domain, take_smallest_err
splits at `lo` and take_largest_err splits at `hi - 1`. -/
theorem extremal_duality (view : List Nat) (f : List Nat → Bool)
    (min_size lo hi : Nat) {E : Type} (err : E)
    (h1 : min_size ≤ lo) (h2 : lo < hi) (h3 : hi ≤ view.length)
    (hf : ∀ i, min_size ≤ i → i < view.length →
      (f (view.take i) = true ↔ lo ≤ i ∧ i < hi)) :
    take_smallest_err view f min_size err = .ok (view.take lo, view.drop lo) ∧
    take_largest_err view f min_size err = .ok (view.take (hi - 1), view.drop (hi - 1)) := by
  have hmle : min_size ≤ view.length := by omega
  constructor
  · unfold take_smallest_err
    have hfind : (List.range' min_size (view.length - min_size)).find?
        (fun i => f (view.take i)) = some lo := by
      refine find?_range'_first (view.length - min_size) min_size lo h1 (by omega)
        ((hf lo h1 (by omega)).mpr ⟨Nat.le_refl lo, h2⟩) ?_
      intro j hj1 hj2
      cases hfj : f (view.take j) with
      | false => rfl
      | true =>
        have := (hf j hj1 (by omega)).mp hfj
        omega
    rw [hfind]
  · unfold take_largest_err
    have hfold := foldl_last_range' (view.length - min_size) min_size lo hi h1 h2
      (by omega) (fun i hi1 hi2 => hf i hi1 (by omega)) none
    rw [hfold]

/-- Witness for claim C5 on a concrete single-range predicate. -/
theorem extremal_duality_witness :
    take_smallest_err [1, 1, 2] (fun l => l == [1]) 0 () = .ok ([1], [1, 2]) ∧
    take_largest_err [1, 1, 2] (fun l => l == [1]) 0 () = .ok ([1], [1, 2]) := by
  have h := extremal_duality [1, 1, 2] (fun l => l == [1]) 0 1 2 ()
    (by decide) (by decide) (by decide)
    (by
      intro i h1 h2
      have h3 : i < 3 := by simpa using h2
      interval_cases i <;> decide)
  exact h

/-- Claim C9: for every non-empty view and every predicate true on the empty
byte slice, take_smallest_err with min_size 0 splits at index 0, returning an
empty matched prefix and the whole view as remainder. -/
theorem smallest_of_empty_true (view : List Nat) (f : List Nat → Bool)
    {E : Type} (err : E) (hne : view ≠ []) (hf : f [] = true) :
    take_smallest_err view f 0 err = .ok ([], view) := by
  unfold take_smallest_err
  have hlen : 0 < view.length := List.length_pos.mpr hne
  have hfind : (List.range' 0 (view.length - 0)).find?
      (fun i => f (view.take i)) = some 0 :=
    find?_range'_first (view.length - 0) 0 0 (Nat.le_refl 0) (by omega)
      (by simpa using hf) (fun j _ hj => absurd hj (Nat.not_lt_zero j))
  rw [hfind]
  simp

/-- Witness for claim C9 at a concrete input. -/
theorem smallest_of_empty_true_witness :
    take_smallest_err [7] (fun _ => true) 0 () = .ok ([], [7]) :=
  smallest_of_empty_true [7] (fun _ => true) () (by decide) rfl

/-- Claim C10: the empty pattern acts as an identity: take_until with the
empty pattern succeeds at index 0 returning `([], view)`, and take_expect with
the empty pattern succeeds returning `([], view)`, for every view. -/
theorem empty_pattern_identity (view : List Nat) :
    take_until view [] = some ([], view) ∧ take_expect view [] = .ok ([], view) := by
  constructor
  · unfold take_until
    rw [if_neg (by simp)]
    have hfind : (List.range (view.length - ([] : List Nat).length + 1)).find?
        (fun i => starts_with (view.drop i) []) = some 0 := by
      rw [List.range_eq_range', List.range'_succ]
      apply List.find?_cons_of_pos
      simp [starts_with]
    rw [hfind]
    simp
  · unfold take_expect
    rw [if_neg (by simp)]
    simp

/-- Claim C4: the repository's own `take_smallest` test input. The code
returns the empty split `([], "aaaabbbbcccc")` for the predicate "prefix
contains no b byte" (the empty prefix already satisfies it), while the test at
src/src/lib.rs:128-135 and the spec assert the split `("a", "aaabbbbcccc")`;
the other two assertions of the test hold as written. -/
theorem take_smallest_test_divergence :
    take_smallest_err aaaabbbbcccc (fun s => !(s.contains 98)) 0 () =
      .ok ([], aaaabbbbcccc) ∧
    take_smallest_err aaaabbbbcccc (fun s => starts_with s [98, 98, 98, 98]) 0 () =
      .error () ∧
    take_largest_err aaaabbbbcccc (fun s => !(s.contains 98)) 0 () =
      .ok ([97, 97, 97, 97], [98, 98, 98, 98, 99, 99, 99, 99]) :=
  ⟨rfl, rfl, rfl⟩

end ParserHelper
